import Mathlib

/-!
Verification development for the ATV3 evdev bridge (`run.py`).

The Python source is shallowly embedded:
* Python dicts become association lists with first-match lookup
  (`dictGetN` / `dictGetS`); `dict.update` is modelled by prepending the
  override list, so an override entry shadows a default entry.
* `resolve_button`, the pure button resolver, is translated clause by
  clause, including Python truthiness: a looked-up empty string is falsy
  and falls through, exactly as `if btn:` does in the source.
* The `EventDispatcher` queue is a record holding the queue contents, the
  capacity (`maxsize`), the monotone drop counter, the stopping flag and
  the list of delivered payloads; `emit` mirrors `put_nowait` with the
  drop-on-full branch and its throttled diagnostic predicate.
* `read_device` becomes a state machine `processInput` over a session
  state (pending scan code, live hold timers, output trace); the asyncio
  hold tasks become identified timers that may fire only while registered
  in `holds`.  Steps are atomic exactly where the Python has no `await`
  suspension point between a check and its effect.
* `hold_loop` becomes a fuel-indexed count of emissions over rational
  time; the cancellation event set at time `T` is observed by a wakeup at
  time `t` only when `T < t`, resolving races at the exact boundary.
-/

namespace ATV3

/-- First-match lookup in an integer-keyed association list, the model of
`dict.get` for Python dicts with `int` keys. -/
def dictGetN (m : List (Nat × String)) (k : Nat) : Option String :=
  (m.find? (fun p => p.1 == k)).map (fun p => p.2)

/-- First-match lookup in a string-keyed association list, the model of
`dict.get` for Python dicts with `str` keys. -/
def dictGetS (m : List (String × String)) (k : String) : Option String :=
  (m.find? (fun p => p.1 == k)).map (fun p => p.2)

/-- The built-in `KEY_MAP` of `run.py`. -/
def KEY_MAP : List (Nat × String) :=
  [(116, "power"), (139, "menu"), (217, "mic"), (103, "up"), (108, "down"),
   (105, "left"), (106, "right"), (353, "ok"), (158, "back"), (172, "home"),
   (113, "mute"), (115, "vol_up"), (114, "vol_down"), (104, "ch_up"),
   (109, "ch_down"), (14, "tv_or_backspace")]

/-- The built-in `SCAN_MAP` of `run.py`. -/
def SCAN_MAP : List (String × String) :=
  [("c000a", "gear"), ("c0009", "youtube"), ("c000e", "netflix"),
   ("c0005", "disney_plus"), ("c0007", "google_play"), ("c0221", "mic"),
   ("700aa", "mic_extra"), ("c0041", "ok"), ("c0042", "up"),
   ("c0043", "down"), ("c0044", "left"), ("c0045", "right")]

/-- `key_map = dict(KEY_MAP); key_map.update(overrides)`: the merged map,
as a lookup structure in which an override entry shadows a default. -/
def mergeKeyMap (ov : List (Nat × String)) : List (Nat × String) :=
  ov ++ KEY_MAP

/-- Python `str.lower()` on the ASCII strings this program handles,
written over the character list so that it evaluates in the kernel. -/
def strLower (s : String) : String :=
  String.mk (s.data.map Char.toLower)

/-- Step 3 of `resolve_button`: derive a name from the `KEY_*` symbolic
name, applying the fixed alias table, else fall back to `key_<code>`. -/
def resolve_name (code : Nat) (name : String) : String :=
  if name.startsWith "KEY_" then
    let derived := strLower (name.drop 4)
    if derived = "select" then "ok"
    else if derived = "enter" then "ok"
    else if derived = "esc" then "back"
    else if derived = "search" then "mic"
    else derived
  else "key_" ++ toString code

/-- `resolve_button` from `run.py`, clause by clause.  A `dict.get` miss
and a looked-up empty string are both falsy in Python, hence the
`(… ).getD ""` / `= ""` pattern. -/
def resolve_button (code : Nat) (name : String) (scan : String)
    (ignore : List String) (key_map : List (Nat × String))
    (scan_map : List (String × String)) : String :=
  let btn := (dictGetN key_map code).getD ""
  if btn ≠ "" then btn
  else if scan ≠ "" then
    if scan ∈ ignore then ""
    else
      let btn2 := (dictGetS scan_map scan).getD ""
      if btn2 ≠ "" then btn2
      else if code = 240 then "unknown_scan_" ++ scan
      else resolve_name code name
  else resolve_name code name

/-- `norm_scan`: lowercase hexadecimal rendering of a scan value, no
leading `0x`, as produced by Python `format(v, "x")`. -/
def norm_scan (v : Nat) : String :=
  (Nat.toDigits 16 v).asString

/-- State of an `EventDispatcher`: the bounded `asyncio.Queue` contents,
its capacity (`maxsize`), the drop counter, the stopping flag, the
payloads already handed to the worker and posted, and the liveness of the
worker task / the `requests.Session`.  Payloads are abstracted to `Nat`;
the queue logic never inspects them. -/
structure Dispatcher where
  queue : List Nat
  maxsize : Nat
  dropped : Nat
  stopping : Bool
  delivered : List Nat
  workerAlive : Bool
  sessionOpen : Bool
  deriving Repr, DecidableEq

/-- A freshly constructed and started dispatcher with capacity `n`. -/
def initD (n : Nat) : Dispatcher :=
  ⟨[], n, 0, false, [], true, true⟩

/-- `EventDispatcher.emit`: no-op when stopping; `put_nowait` succeeds
while `qsize < maxsize`; on `QueueFull` the payload is dropped, the
counter incremented, and the returned flag records whether the throttled
queue-full diagnostic was logged (`dropped == 1 or dropped % 25 == 0`). -/
def emit (d : Dispatcher) (p : Nat) : Dispatcher × Bool :=
  if d.stopping then (d, false)
  else if d.queue.length < d.maxsize then
    ({ d with queue := d.queue ++ [p] }, false)
  else
    ({ d with dropped := d.dropped + 1 },
     (d.dropped + 1 == 1) || ((d.dropped + 1) % 25 == 0))

/-- Emit a list of payloads in order, keeping only the final state. -/
def emitAll (d : Dispatcher) (ps : List Nat) : Dispatcher :=
  ps.foldl (fun x p => (emit x p).1) d

/-- Emit a list of payloads in order, collecting the diagnostic flag of
each call. -/
def emitLogs (d : Dispatcher) (ps : List Nat) : Dispatcher × List Bool :=
  match ps with
  | [] => (d, [])
  | p :: rest =>
      let x := emit d p
      let y := emitLogs x.1 rest
      (y.1, x.2 :: y.2)

/-- One cooperative step of the dispatcher while other tasks run: either
some producer calls `emit`, or the worker takes the head of the queue,
posts it and calls `task_done`. -/
inductive DStep : Dispatcher → Dispatcher → Prop
  | emitStep (d : Dispatcher) (p : Nat) : DStep d (emit d p).1
  | workStep (d : Dispatcher) (p : Nat) (rest : List Nat)
      (h : d.queue = p :: rest) :
      DStep d { d with queue := rest, delivered := d.delivered ++ [p] }

/-- Finitely many `DStep`s. -/
inductive DSteps : Dispatcher → Dispatcher → Prop
  | refl (d : Dispatcher) : DSteps d d
  | tail {a b c : Dispatcher} : DSteps a b → DStep b c → DSteps a c

/-- The tail of `EventDispatcher.stop` after `queue.join()` returns:
cancel the worker task and close the HTTP session. -/
def finishStop (d : Dispatcher) : Dispatcher :=
  { d with workerAlive := false, sessionOpen := false }

/-- Events emitted by a device session into the dispatcher.  `key_hold`
carries the identifier of the hold timer that produced it. -/
inductive OutEvent where
  | key_down (code : Nat) (button : String) (scan : String)
  | key_up (code : Nat) (button : String) (scan : String)
  | key_hold (code : Nat) (button : String) (tid : Nat)
  deriving Repr, DecidableEq

/-- Raw events delivered by `dev.async_read_loop()`: an `EV_MSC/MSC_SCAN`
scan event, an `EV_KEY` event with its value (1 down, 0 up, 2 autorepeat),
or any other event type, which `read_device` skips. -/
inductive InEvent where
  | scanEv (v : Nat)
  | keyEv (code : Nat) (val : Nat)
  | otherEv
  deriving Repr, DecidableEq

/-- The per-device configuration given to `read_device`: the merged key
and scan maps, the ignore set, the hold-button set, and the external
`ecodes.KEY` table behind `key_name`. -/
structure SessCfg where
  key_map : List (Nat × String)
  scan_map : List (String × String)
  ignore : List String
  hold_buttons : List String
  keyName : Nat → String

/-- Mutable state of one `read_device` session: the pending (single-use)
scan code, the `holds` table mapping `(code, button)` to the identifier
of its live hold timer, a fresh-identifier counter, and the trace of
events emitted into the dispatcher so far. -/
structure Session where
  lastScan : Option String
  holds : List ((Nat × String) × Nat)
  nextId : Nat
  trace : List OutEvent
  deriving Repr, DecidableEq

/-- The state at the top of `read_device`. -/
def sessionInit : Session :=
  ⟨none, [], 0, []⟩

/-- `holds.pop(key, None)`: remove the entry for a `(code, button)` pair
(the popped timer is signalled and cancelled by the caller). -/
def eraseHold (hs : List ((Nat × String) × Nat)) (p : Nat × String) :
    List ((Nat × String) × Nat) :=
  hs.filter (fun q => decide (q.1 ≠ p))

/-- Handling of an `EV_KEY` event (value ≠ 2) after the pending scan has
been consumed: resolve the button, skip when suppressed, emit `key_down`
and (for hold buttons) cancel-then-replace the hold timer, or emit
`key_up` and cancel the pair's timer.  This is one atomic step: the
Python between the resolution and the end of the branch contains no
suspension point (`emit`'s body never awaits). -/
def keyStep (cfg : SessCfg) (scan : String) (code val : Nat)
    (s : Session) : Session :=
  let button := resolve_button code (cfg.keyName code) scan cfg.ignore
      cfg.key_map cfg.scan_map
  if button = "" then s
  else if val = 1 then
    let s1 := { s with trace := s.trace ++ [OutEvent.key_down code button scan] }
    if button ∈ cfg.hold_buttons then
      { s1 with
        holds := eraseHold s1.holds (code, button) ++ [((code, button), s.nextId)],
        nextId := s.nextId + 1 }
    else s1
  else if val = 0 then
    { s with
      trace := s.trace ++ [OutEvent.key_up code button scan],
      holds := eraseHold s.holds (code, button) }
  else s

/-- The body of `read_device`'s loop for one raw event.  A scan event
overwrites the pending scan; autorepeat key events are skipped before
the pending scan is consumed (exactly as in the source, where
`val == 2: continue` precedes `last_scan = None`); any other key event
consumes the pending scan. -/
def processInput (cfg : SessCfg) (s : Session) : InEvent → Session
  | InEvent.scanEv v => { s with lastScan := some (norm_scan v) }
  | InEvent.otherEv => s
  | InEvent.keyEv code val =>
      if val = 2 then s
      else keyStep cfg (strLower (s.lastScan.getD "")) code val
          { s with lastScan := none }

/-- Interleaved execution of a device session: either the reader task
processes the next raw event, or a live hold timer (identified by `tid`,
registered in `holds`) wakes up and emits one `key_hold`.  A timer that
has been signalled and cancelled is no longer in `holds` and has no
step: in the Python, the `stop_evt.is_set()` check and the enqueue are
separated by no suspension point, so a cancelled `hold_loop` task can
never emit again. -/
inductive SessStep (cfg : SessCfg) : Session → Session → Prop
  | input (s : Session) (e : InEvent) : SessStep cfg s (processInput cfg s e)
  | fire (s : Session) (c : Nat) (b : String) (tid : Nat)
      (h : ((c, b), tid) ∈ s.holds) :
      SessStep cfg s { s with trace := s.trace ++ [OutEvent.key_hold c b tid] }

/-- Finitely many session steps. -/
inductive SessSteps (cfg : SessCfg) : Session → Session → Prop
  | refl (s : Session) : SessSteps cfg s s
  | tail {a b c : Session} : SessSteps cfg a b → SessStep cfg b c →
      SessSteps cfg a c

/-- The session states reachable in some run of `read_device`. -/
abbrev Reaches (cfg : SessCfg) (s : Session) : Prop :=
  SessSteps cfg sessionInit s

/-- Classify an event as a down (`some true`) or up (`some false`)
transition of the pair `p`; holds and other pairs' events are `none`. -/
def duEvent (p : Nat × String) : OutEvent → Option Bool
  | OutEvent.key_down c b _ => if (c, b) = p then some true else none
  | OutEvent.key_up c b _ => if (c, b) = p then some false else none
  | OutEvent.key_hold _ _ _ => none

/-- The direction of the last down/up transition of pair `p` in a trace,
`none` when the pair has no down/up event yet. -/
def lastDU (p : Nat × String) (tr : List OutEvent) : Option Bool :=
  (tr.filterMap (duEvent p)).getLast?

/-- `hold_loop` over rational time, fuel-indexed: in state `Repeating`
at wakeup time `t` (first wakeup at `t = delay`), the loop emits iff the
cancellation event, set at time `T`, is not yet observed — ties at the
exact boundary are resolved toward the timer, i.e. the event is observed
at wakeup time `t` only when `T < t`. -/
def hold_go (R T : ℚ) : ℕ → ℚ → ℕ
  | 0, _ => 0
  | n + 1, t => if t ≤ T then hold_go R T n (t + R) + 1 else 0

/-- Number of `key_hold` events emitted by `hold_loop(delay := D,
repeat := R)` when the cancellation signal arrives at time `T`, with
enough `fuel` to cover the whole run. -/
def hold_loop_count (D R T : ℚ) (fuel : ℕ) : ℕ :=
  hold_go R T fuel D

/-- The traces in which every `key_hold` of a pair lies strictly between
that pair's `key_down` and its next `key_up`: before each hold, the last
down/up transition of its pair is a down. -/
def GoodT (tr : List OutEvent) : Prop :=
  ∀ t1 c b tid t2, tr = t1 ++ OutEvent.key_hold c b tid :: t2 →
    lastDU (c, b) t1 = some true

/-- Invariant of every reachable session state: live hold timers have
pairwise distinct `(code, button)` pairs and identifiers below the
fresh-identifier counter, each live timer's pair is currently down, and
the trace never shows a hold outside its pair's down interval. -/
structure SessInv (s : Session) : Prop where
  nodupPairs : (s.holds.map Prod.fst).Nodup
  idsLt : ∀ q ∈ s.holds, q.2 < s.nextId
  holdsDown : ∀ q ∈ s.holds, lastDU q.1 s.trace = some true
  good : GoodT s.trace

/-- Example session configuration used by concrete instantiations:
`{103: "up"}` as the key map and `"up"` as the only hold button. -/
def exCfg : SessCfg :=
  ⟨[(103, "up")], [], ["700aa"], ["up"], fun _ => "KEY_UNKNOWN"⟩

/-- State after one down-transition of code 103 under `exCfg`. -/
def exDown : Session :=
  processInput exCfg sessionInit (InEvent.keyEv 103 1)

/-- State after the hold timer started by `exDown` fires once. -/
def exDownHold : Session :=
  { exDown with trace := exDown.trace ++ [OutEvent.key_hold 103 "up" 0] }

/-- State after a second down-transition of code 103 (timer replaced). -/
def exDown2 : Session :=
  processInput exCfg exDown (InEvent.keyEv 103 1)

/-- A session state with a pending ignored scan code. -/
def exScanPending : Session :=
  ⟨some "700aa", [], 0, []⟩

/-- A stopping dispatcher with two queued events, mid-`stop()`. -/
def exStopping : Dispatcher :=
  ⟨[1, 2], 4, 0, true, [0], true, true⟩

/-- Every button name in the built-in `KEY_MAP` is non-empty (hence
truthy in Python). -/
theorem KEY_MAP_values_nonempty : ∀ p ∈ KEY_MAP, p.2 ≠ "" := by decide

/-- A successful lookup in the merged key map yields either an override
value or a built-in value. -/
theorem dictGetN_mem (m : List (Nat × String)) (k : Nat) (b : String)
    (h : dictGetN m k = some b) : ∃ p ∈ m, p.2 = b := by
  unfold dictGetN at h
  rcases Option.map_eq_some'.mp h with ⟨pr, hfind, hsnd⟩
  exact ⟨pr, List.mem_of_find?_eq_some hfind, hsnd⟩

/-- C1: for every hardware key code that is a key of the merged KeyMap
(built-in `KEY_MAP` overlaid with overrides, whose values are the
non-empty names produced by `normalize_button_name`), `resolve_button`
returns the mapped button name, for every scan-code argument, ignore set
and symbolic key name: the keycode mapping has absolute priority. -/
theorem keycode_mapping_wins (ov : List (Nat × String))
    (hov : ∀ p ∈ ov, p.2 ≠ "") (code : Nat) (b : String)
    (hb : dictGetN (mergeKeyMap ov) code = some b)
    (name scan : String) (ignore : List String)
    (scan_map : List (String × String)) :
    resolve_button code name scan ignore (mergeKeyMap ov) scan_map = b := by
  have hbne : b ≠ "" := by
    rcases dictGetN_mem _ _ _ hb with ⟨p, hp, hpb⟩
    rcases List.mem_append.mp hp with hp1 | hp2
    · exact hpb ▸ hov p hp1
    · exact hpb ▸ KEY_MAP_values_nonempty p hp2
  simp [resolve_button, hb, hbne]

/-- C1 witness: code 116 is overridden to `power_toggle`; code 103 keeps
its built-in mapping `up` even with a pending ignored scan code. -/
theorem keycode_mapping_wins_witness :
    resolve_button 103 "KEY_UP" "700aa" ["700aa"]
      (mergeKeyMap [(116, "power_toggle")]) SCAN_MAP = "up" :=
  keycode_mapping_wins [(116, "power_toggle")] (by decide) 103 "up"
    (by decide) "KEY_UP" "700aa" ["700aa"] SCAN_MAP

/-- C9: an event whose (non-empty, normalized) scan code is in the
ignore set and whose hardware code misses the key map resolves to the
empty string (suppress), and `read_device` then drops the event before
queuing: the session neither emits anything nor starts a timer, only the
pending scan is consumed. -/
theorem ignored_scan_suppressed (cfg : SessCfg) (s : Session)
    (code val : Nat) (scan : String)
    (hs : s.lastScan = some scan) (hlow : strLower scan = scan)
    (hscan : scan ≠ "") (hmem : scan ∈ cfg.ignore)
    (hkm : dictGetN cfg.key_map code = none) (hval : val ≠ 2) :
    resolve_button code (cfg.keyName code) scan cfg.ignore cfg.key_map
        cfg.scan_map = "" ∧
    processInput cfg s (InEvent.keyEv code val) =
      { s with lastScan := none } := by
  have hres : resolve_button code (cfg.keyName code) scan cfg.ignore
      cfg.key_map cfg.scan_map = "" := by
    simp [resolve_button, hkm, hscan, hmem]
  refine ⟨hres, ?_⟩
  simp [processInput, hval, hs, hlow, keyStep, hres]

/-- C9 witness: scan `700aa` (the default ignore entry) with unmapped
code 998 suppresses the event and leaves the session unchanged apart
from consuming the pending scan. -/
theorem ignored_scan_suppressed_witness :
    resolve_button 998 (exCfg.keyName 998) "700aa" exCfg.ignore
        exCfg.key_map exCfg.scan_map = "" ∧
    processInput exCfg exScanPending (InEvent.keyEv 998 0) =
      { exScanPending with lastScan := none } :=
  ignored_scan_suppressed exCfg exScanPending 998 0 "700aa" (by decide)
    (by decide) (by decide) (by decide) (by decide) (by decide)

/-- C10: `resolve_button` tests the key map by truthiness, not key
presence: a code bound to the empty string resolves exactly as if the
map had no entry for it, falling through to the scan-code and
name-derivation steps. -/
theorem empty_mapping_falls_through (code : Nat) (name scan : String)
    (ignore : List String) (key_map : List (Nat × String))
    (scan_map : List (String × String))
    (h : dictGetN key_map code = some "") :
    resolve_button code name scan ignore key_map scan_map =
      resolve_button code name scan ignore [] scan_map := by
  unfold resolve_button
  rw [h]
  simp [dictGetN]

/-- C10 witness: `{353: ""}` falls through, so code 353 with scan
`c0041` resolves through the scan map to `ok` instead of the empty
mapped value. -/
theorem empty_mapping_falls_through_witness :
    resolve_button 353 "KEY_SELECT" "c0041" [] [(353, "")] SCAN_MAP =
      resolve_button 353 "KEY_SELECT" "c0041" [] [] SCAN_MAP :=
  empty_mapping_falls_through 353 "KEY_SELECT" "c0041" [] [(353, "")]
    SCAN_MAP (by decide)

/-- `emit` on a dispatcher whose stopping flag is set returns the state
unchanged and logs nothing. -/
theorem emit_stopping (d : Dispatcher) (p : Nat) (h : d.stopping = true) :
    emit d p = (d, false) := by
  simp [emit, h]

/-- After `stop()` has set the stopping flag, any sequence of further
`emit` calls leaves the dispatcher untouched. -/
theorem emitAll_stopping (d : Dispatcher) (ps : List Nat)
    (h : d.stopping = true) : emitAll d ps = d := by
  induction ps with
  | nil => rfl
  | cons p rest ih =>
      have hp : (emit d p).1 = d := by rw [emit_stopping d p h]
      simp only [emitAll, List.foldl_cons, hp]
      exact ih

/-- Along any interleaving of emits and worker steps from a stopping
state, the stopping flag persists and the multiset of events accounted
for (delivered so far plus still queued) is exactly the one at the start
of the drain, in order. -/
theorem dsteps_stopping_inv (d d' : Dispatcher) (h : DSteps d d')
    (hs : d.stopping = true) :
    d'.stopping = true ∧ d'.delivered ++ d'.queue = d.delivered ++ d.queue := by
  induction h with
  | refl => exact ⟨hs, rfl⟩
  | tail hsteps hstep ih =>
      obtain ⟨ih1, ih2⟩ := ih
      cases hstep with
      | emitStep p =>
          rw [emit_stopping _ p ih1]
          exact ⟨ih1, ih2⟩
      | workStep p rest hq =>
          refine ⟨ih1, ?_⟩
          rw [← ih2, hq]
          simp

/-- C6: once `stop()` has begun (stopping flag set), every subsequent
`emit` is a no-op whose event is never delivered, and the drain loop —
any interleaving of worker steps and (no-op) emits that empties the
queue — hands exactly the events enqueued before `stop()` to the worker,
in order, after which the worker is cancelled and the HTTP session
closed without touching what was delivered. -/
theorem stop_drains_and_blocks_emits (d d' : Dispatcher)
    (hstop : d.stopping = true) (hpath : DSteps d d')
    (hdrain : d'.queue = []) :
    (∀ ps, emitAll d ps = d) ∧
    d'.delivered = d.delivered ++ d.queue ∧
    (finishStop d').workerAlive = false ∧
    (finishStop d').sessionOpen = false ∧
    (finishStop d').delivered = d'.delivered := by
  obtain ⟨_, h2⟩ := dsteps_stopping_inv d d' hpath hstop
  refine ⟨fun ps => emitAll_stopping d ps hstop, ?_, rfl, rfl, rfl⟩
  rw [hdrain] at h2
  simpa using h2

/-- C6 witness: a stopping dispatcher with `[1, 2]` queued drains them
to the worker in order via two worker steps. -/
theorem stop_drains_and_blocks_emits_witness :
    (∀ ps, emitAll exStopping ps = exStopping) ∧
    (⟨[], 4, 0, true, [0, 1, 2], true, true⟩ : Dispatcher).delivered =
      exStopping.delivered ++ exStopping.queue ∧
    (finishStop ⟨[], 4, 0, true, [0, 1, 2], true, true⟩).workerAlive = false ∧
    (finishStop ⟨[], 4, 0, true, [0, 1, 2], true, true⟩).sessionOpen = false ∧
    (finishStop ⟨[], 4, 0, true, [0, 1, 2], true, true⟩).delivered =
      (⟨[], 4, 0, true, [0, 1, 2], true, true⟩ : Dispatcher).delivered :=
  stop_drains_and_blocks_emits exStopping
    ⟨[], 4, 0, true, [0, 1, 2], true, true⟩ rfl
    (DSteps.tail
      (DSteps.tail (DSteps.refl exStopping)
        (DStep.workStep exStopping 1 [2] rfl))
      (DStep.workStep _ 2 [] rfl))
    rfl

/-- Effect of a burst of emits on a non-stopping dispatcher: the queue
gains the first events up to the remaining capacity, in order, and every
event beyond that is dropped and counted; no queued event is evicted and
the call never blocks (it is a total function of the state). -/
theorem emitAll_from_state (ps : List Nat) : ∀ d : Dispatcher,
    d.stopping = false →
    (emitAll d ps).queue =
      d.queue ++ ps.take (d.maxsize - d.queue.length) ∧
    (emitAll d ps).dropped =
      d.dropped + (ps.length - (d.maxsize - d.queue.length)) := by
  induction ps with
  | nil => intro d _; simp [emitAll]
  | cons p rest ih =>
      intro d hd
      by_cases hq : d.queue.length < d.maxsize
      · have hemit : (emit d p).1 = { d with queue := d.queue ++ [p] } := by
          simp [emit, hd, hq]
        have step : emitAll d (p :: rest) =
            emitAll { d with queue := d.queue ++ [p] } rest := by
          simp only [emitAll, List.foldl_cons, hemit]
        obtain ⟨ihq, ihd⟩ := ih { d with queue := d.queue ++ [p] } hd
        obtain ⟨k, hk⟩ : ∃ k, d.maxsize - d.queue.length = k + 1 :=
          ⟨d.maxsize - d.queue.length - 1, by omega⟩
        have hk2 : d.maxsize - (d.queue ++ [p]).length = k := by
          simp
          omega
        rw [step]
        constructor
        · rw [ihq]
          simp only [hk2, hk, List.take_succ_cons, List.append_assoc,
            List.singleton_append]
        · rw [ihd]
          simp only [hk2, hk, List.length_cons]
          omega
      · have hemit : (emit d p).1 = { d with dropped := d.dropped + 1 } := by
          simp [emit, hd, hq]
        have step : emitAll d (p :: rest) =
            emitAll { d with dropped := d.dropped + 1 } rest := by
          simp only [emitAll, List.foldl_cons, hemit]
        obtain ⟨ihq, ihd⟩ := ih { d with dropped := d.dropped + 1 } hd
        have hml : d.maxsize - d.queue.length = 0 := by omega
        rw [step]
        constructor
        · rw [ihq]
          simp [hml]
        · rw [ihd]
          simp only [hml, List.length_cons]
          omega

/-- C7: a fresh dispatcher of capacity `N > 0` given `N + 1` emits with
no consumer enqueues exactly the first `N` events in FIFO order, drops
exactly the last (newest) one without evicting anything queued, and ends
with the drop counter at 1; `emit` never blocks (it is a total
function). -/
theorem queue_overflow_drops_newest (N : Nat) (hN : 0 < N)
    (ps : List Nat) (hlen : ps.length = N + 1) :
    (emitAll (initD N) ps).queue = ps.take N ∧
    (emitAll (initD N) ps).dropped = 1 := by
  obtain ⟨hq, hd⟩ := emitAll_from_state ps (initD N) rfl
  refine ⟨?_, ?_⟩
  · rw [hq]
    simp [initD]
  · rw [hd]
    simp [initD, hlen]

/-- C7 witness: capacity 2, three emits: `[10, 20]` queued, one drop. -/
theorem queue_overflow_drops_newest_witness :
    (emitAll (initD 2) [10, 20, 30]).queue = [10, 20, 30].take 2 ∧
    (emitAll (initD 2) [10, 20, 30]).dropped = 1 :=
  queue_overflow_drops_newest 2 (by decide) [10, 20, 30] (by decide)

/-- C2 counterexample: drive a capacity-1 dispatcher to 25 drops (26
emits on a full queue after the first fill), then emit once more: the
26th total drop is counted but logs no diagnostic, contradicting the
claim that the 26th drop triggers one. -/
theorem drop26_no_diagnostic :
    (emit (emitAll (initD 1) (List.replicate 26 0)) 0).2 = false ∧
    (emit (emitAll (initD 1) (List.replicate 26 0)) 0).1.dropped = 26 := by
  decide

/-- On a full, non-stopping queue, the sequence of diagnostic flags of
successive emits follows the drop counter: starting from `dropped = j`,
the `i`-th further drop logs iff `j + i` is 1 or a multiple of 25. -/
theorem emitLogs_full_aux (ps : List Nat) : ∀ d : Dispatcher,
    d.stopping = false → d.maxsize ≤ d.queue.length →
    (emitLogs d ps).2 = (List.range ps.length).map
      (fun i => decide (d.dropped + i + 1 = 1 ∨
        (d.dropped + i + 1) % 25 = 0)) := by
  induction ps with
  | nil => intro d _ _; simp [emitLogs]
  | cons p rest ih =>
      intro d hd hfull
      have hnl : ¬ d.queue.length < d.maxsize := by omega
      have hemit : emit d p = ({ d with dropped := d.dropped + 1 },
          ((d.dropped + 1 == 1) || ((d.dropped + 1) % 25 == 0))) := by
        simp [emit, hd, hnl]
      have ihr := ih { d with dropped := d.dropped + 1 } hd hfull
      simp only [emitLogs, hemit]
      rw [ihr, List.length_cons, List.range_succ_eq_map, List.map_cons,
        List.map_map]
      congr 1
      · by_cases h1 : d.dropped + 1 = 1 <;>
          by_cases h2 : (d.dropped + 1) % 25 = 0 <;>
          simp [h1, h2] <;> omega
      · refine List.map_congr_left ?_
        intro i _
        simp only [Function.comp]
        refine decide_eq_decide.mpr ?_
        constructor <;> intro hc <;> omega

/-- C2 amended: for every run of drops (full queue, drop counter from
0), the queue-full diagnostic is emitted exactly on the drops whose
ordinal is 1 or a multiple of 25 — so the 25th total drop triggers a
diagnostic and the 26th does not. -/
theorem drop_diagnostic_schedule (d : Dispatcher)
    (hstop : d.stopping = false) (hfull : d.maxsize ≤ d.queue.length)
    (hzero : d.dropped = 0) (ps : List Nat) :
    (emitLogs d ps).2 = (List.range ps.length).map
      (fun i => decide (i + 1 = 1 ∨ (i + 1) % 25 = 0)) := by
  have h := emitLogs_full_aux ps d hstop hfull
  rw [hzero] at h
  simpa using h

/-- C2 amended witness: three drops on a full capacity-1 queue log the
diagnostic on the first drop only. -/
theorem drop_diagnostic_schedule_witness :
    (emitLogs ⟨[5], 1, 0, false, [], true, true⟩ [1, 2, 3]).2 =
      (List.range 3).map (fun i => decide (i + 1 = 1 ∨ (i + 1) % 25 = 0)) :=
  drop_diagnostic_schedule ⟨[5], 1, 0, false, [], true, true⟩ rfl
    (by decide) rfl [1, 2, 3]

/-- Lowercasing the empty string gives the empty string. -/
theorem strLower_empty : strLower "" = "" := by decide

/-- `keyStep` never touches the pending scan field. -/
theorem keyStep_lastScan (cfg : SessCfg) (sc : String) (c v : Nat)
    (s : Session) : (keyStep cfg sc c v s).lastScan = s.lastScan := by
  simp only [keyStep]
  split
  · rfl
  · split
    · split <;> rfl
    · split <;> rfl

/-- C4: the pending scan code is single-use.  A scan event records the
normalized value; the next non-autorepeat key event resolves with that
value and clears the pending scan; a second key event therefore resolves
exactly as if no scan code were present (empty scan string). -/
theorem scan_code_single_use (cfg : SessCfg) (s : Session)
    (v c1 v1 c2 v2 : Nat) (h1 : v1 ≠ 2) (h2 : v2 ≠ 2) :
    (processInput cfg s (InEvent.scanEv v)).lastScan = some (norm_scan v) ∧
    processInput cfg (processInput cfg s (InEvent.scanEv v))
        (InEvent.keyEv c1 v1) =
      keyStep cfg (strLower (norm_scan v)) c1 v1 { s with lastScan := none } ∧
    (processInput cfg (processInput cfg s (InEvent.scanEv v))
        (InEvent.keyEv c1 v1)).lastScan = none ∧
    processInput cfg
        (processInput cfg (processInput cfg s (InEvent.scanEv v))
          (InEvent.keyEv c1 v1)) (InEvent.keyEv c2 v2) =
      keyStep cfg "" c2 v2
        { processInput cfg (processInput cfg s (InEvent.scanEv v))
            (InEvent.keyEv c1 v1) with lastScan := none } := by
  have e2 : processInput cfg (processInput cfg s (InEvent.scanEv v))
      (InEvent.keyEv c1 v1) =
      keyStep cfg (strLower (norm_scan v)) c1 v1
        { s with lastScan := none } := by
    simp [processInput, h1]
  have e3 : (processInput cfg (processInput cfg s (InEvent.scanEv v))
      (InEvent.keyEv c1 v1)).lastScan = none := by
    rw [e2, keyStep_lastScan]
  refine ⟨rfl, e2, e3, ?_⟩
  generalize processInput cfg (processInput cfg s (InEvent.scanEv v))
      (InEvent.keyEv c1 v1) = s2 at e3 ⊢
  simp only [processInput, if_neg h2, e3, Option.getD_none, strLower_empty]

/-- C4 witness: scan `c0009` followed by a down and an up of code 103:
the down consumes the scan, the up resolves with the empty scan. -/
theorem scan_code_single_use_witness :
    (processInput exCfg sessionInit (InEvent.scanEv 786441)).lastScan =
      some (norm_scan 786441) ∧
    processInput exCfg (processInput exCfg sessionInit (InEvent.scanEv 786441))
        (InEvent.keyEv 103 1) =
      keyStep exCfg (strLower (norm_scan 786441)) 103 1
        { sessionInit with lastScan := none } ∧
    (processInput exCfg (processInput exCfg sessionInit (InEvent.scanEv 786441))
        (InEvent.keyEv 103 1)).lastScan = none ∧
    processInput exCfg
        (processInput exCfg (processInput exCfg sessionInit (InEvent.scanEv 786441))
          (InEvent.keyEv 103 1)) (InEvent.keyEv 103 0) =
      keyStep exCfg "" 103 0
        { processInput exCfg (processInput exCfg sessionInit (InEvent.scanEv 786441))
            (InEvent.keyEv 103 1) with lastScan := none } :=
  scan_code_single_use exCfg sessionInit 786441 103 1 103 0
    (by decide) (by decide)

/-- Splitting a one-element extension of a list around a distinguished
element: the element is either the appended one or inside the original
list. -/
theorem concat_split {α : Type} (tr : List α) (e : α) (t1 : List α)
    (x : α) (t2 : List α) (h : tr ++ [e] = t1 ++ x :: t2) :
    (t1 = tr ∧ x = e ∧ t2 = []) ∨
      ∃ t2b, tr = t1 ++ x :: t2b ∧ t2 = t2b ++ [e] := by
  rcases List.eq_nil_or_concat t2 with h2 | ⟨t2b, a, rfl⟩
  · subst h2
    obtain ⟨h3, h4⟩ := List.append_inj' h rfl
    injection h4 with h5 h6
    exact Or.inl ⟨h3.symm, h5.symm, rfl⟩
  · simp only [List.concat_eq_append] at h ⊢
    rw [← List.cons_append, ← List.append_assoc] at h
    obtain ⟨h3, h4⟩ := List.append_inj' h rfl
    injection h4 with h5 h6
    exact Or.inr ⟨t2b, h3, by rw [h5]⟩

/-- Appending a down/up classification miss leaves `lastDU` unchanged. -/
theorem lastDU_append_none (p : Nat × String) (tr : List OutEvent)
    (e : OutEvent) (h : duEvent p e = none) :
    lastDU p (tr ++ [e]) = lastDU p tr := by
  simp [lastDU, List.filterMap_append, h]

/-- Appending a down/up transition of the pair makes it the last one. -/
theorem lastDU_append_some (p : Nat × String) (tr : List OutEvent)
    (e : OutEvent) (x : Bool) (h : duEvent p e = some x) :
    lastDU p (tr ++ [e]) = some x := by
  simp [lastDU, List.filterMap_append, h]

/-- Appending an event preserves `GoodT`, provided the event is a hold
only when its pair is currently down. -/
theorem goodT_append (tr : List OutEvent) (e : OutEvent) (hg : GoodT tr)
    (he : ∀ c b tid, e = OutEvent.key_hold c b tid →
      lastDU (c, b) tr = some true) :
    GoodT (tr ++ [e]) := by
  intro t1 c b tid t2 h
  rcases concat_split tr e t1 _ t2 h with ⟨rfl, he2, rfl⟩ | ⟨t2b, h3, rfl⟩
  · exact he c b tid he2.symm
  · exact hg t1 c b tid t2b h3

/-- Popping a pair keeps only entries of the remaining pairs. -/
theorem eraseHold_subset (hs : List ((Nat × String) × Nat))
    (p : Nat × String) : ∀ q ∈ eraseHold hs p, q ∈ hs :=
  fun q hq => (List.mem_filter.mp hq).1

/-- After popping a pair, no remaining entry carries that pair. -/
theorem eraseHold_ne (hs : List ((Nat × String) × Nat))
    (p : Nat × String) : ∀ q ∈ eraseHold hs p, q.1 ≠ p := by
  intro q hq
  have h := (List.mem_filter.mp hq).2
  simpa using h

/-- Popping preserves distinctness of the registered pairs. -/
theorem eraseHold_nodup (hs : List ((Nat × String) × Nat))
    (p : Nat × String) (h : (hs.map Prod.fst).Nodup) :
    ((eraseHold hs p).map Prod.fst).Nodup :=
  h.sublist ((List.filter_sublist hs).map Prod.fst)

/-- The initial session state satisfies the invariant. -/
theorem sessInv_init : SessInv sessionInit := by
  refine ⟨by simp [sessionInit], ?_, ?_, ?_⟩
  · intro q hq
    simp [sessionInit] at hq
  · intro q hq
    simp [sessionInit] at hq
  · intro t1 c b tid t2 h
    have : sessionInit.trace = [] := rfl
    rw [this] at h
    cases t1 <;> simp at h

/-- A firing hold timer preserves the session invariant. -/
theorem sessInv_fire (s : Session) (c : Nat) (b : String) (tid : Nat)
    (hmem : ((c, b), tid) ∈ s.holds) (hi : SessInv s) :
    SessInv { s with trace := s.trace ++ [OutEvent.key_hold c b tid] } := by
  refine ⟨hi.nodupPairs, hi.idsLt, ?_, ?_⟩
  · intro q hq
    rw [lastDU_append_none q.1 s.trace (OutEvent.key_hold c b tid) rfl]
    exact hi.holdsDown q hq
  · refine goodT_append s.trace _ hi.good ?_
    intro c2 b2 tid2 he
    cases he
    exact hi.holdsDown ((c, b), tid) hmem

/-- A down-transition that emits `key_down` but starts no timer
preserves the session invariant. -/
theorem sessInv_down_plain (s : Session) (code : Nat) (b sc : String)
    (hi : SessInv s) :
    SessInv { s with trace := s.trace ++ [OutEvent.key_down code b sc] } := by
  refine ⟨hi.nodupPairs, hi.idsLt, ?_, ?_⟩
  · intro q hq
    by_cases hqp : (code, b) = q.1
    · exact lastDU_append_some q.1 s.trace _ true (by simp [duEvent, hqp])
    · rw [lastDU_append_none q.1 s.trace _ (by simp [duEvent, hqp])]
      exact hi.holdsDown q hq
  · refine goodT_append s.trace _ hi.good ?_
    intro c2 b2 tid2 he
    cases he

/-- A down-transition that cancels any prior timer of the pair and
registers a fresh one preserves the session invariant. -/
theorem sessInv_down_hold (s : Session) (code : Nat) (b sc : String)
    (hi : SessInv s) :
    SessInv { s with
      trace := s.trace ++ [OutEvent.key_down code b sc],
      holds := eraseHold s.holds (code, b) ++ [((code, b), s.nextId)],
      nextId := s.nextId + 1 } := by
  refine ⟨?_, ?_, ?_, ?_⟩
  · rw [List.map_append]
    rw [List.nodup_append]
    refine ⟨eraseHold_nodup s.holds _ hi.nodupPairs, List.nodup_singleton _, ?_⟩
    intro x hx hx2
    simp only [List.map_cons, List.map_nil, List.mem_singleton] at hx2
    rcases List.mem_map.mp hx with ⟨q, hq, hq2⟩
    exact eraseHold_ne s.holds _ q hq (hq2.trans hx2)
  · intro q hq
    rcases List.mem_append.mp hq with hq | hq
    · exact Nat.lt_succ_of_lt (hi.idsLt q (eraseHold_subset s.holds _ q hq))
    · rw [List.mem_singleton.mp hq]
      exact Nat.lt_succ_self _
  · intro q hq
    rcases List.mem_append.mp hq with hq | hq
    · have hne : (code, b) ≠ q.1 := fun he => eraseHold_ne s.holds _ q hq he.symm
      rw [lastDU_append_none q.1 s.trace _ (by simp [duEvent, hne])]
      exact hi.holdsDown q (eraseHold_subset s.holds _ q hq)
    · rw [List.mem_singleton.mp hq]
      exact lastDU_append_some _ s.trace _ true (by simp [duEvent])
  · refine goodT_append s.trace _ hi.good ?_
    intro c2 b2 tid2 he
    cases he

/-- An up-transition (emit `key_up`, cancel the pair's timer) preserves
the session invariant. -/
theorem sessInv_up (s : Session) (code : Nat) (b sc : String)
    (hi : SessInv s) :
    SessInv { s with
      trace := s.trace ++ [OutEvent.key_up code b sc],
      holds := eraseHold s.holds (code, b) } := by
  refine ⟨eraseHold_nodup s.holds _ hi.nodupPairs, ?_, ?_, ?_⟩
  · intro q hq
    exact hi.idsLt q (eraseHold_subset s.holds _ q hq)
  · intro q hq
    have hne : (code, b) ≠ q.1 := fun he => eraseHold_ne s.holds _ q hq he.symm
    rw [lastDU_append_none q.1 s.trace _ (by simp [duEvent, hne])]
    exact hi.holdsDown q (eraseHold_subset s.holds _ q hq)
  · refine goodT_append s.trace _ hi.good ?_
    intro c2 b2 tid2 he
    cases he

/-- `keyStep` preserves the session invariant. -/
theorem sessInv_keyStep (cfg : SessCfg) (sc : String) (code val : Nat)
    (s : Session) (hi : SessInv s) :
    SessInv (keyStep cfg sc code val s) := by
  simp only [keyStep]
  split
  · exact hi
  · split
    · split
      · exact sessInv_down_hold s code _ sc hi
      · exact sessInv_down_plain s code _ sc hi
    · split
      · exact sessInv_up s code _ sc hi
      · exact hi

/-- `processInput` preserves the session invariant. -/
theorem sessInv_input (cfg : SessCfg) (s : Session) (e : InEvent)
    (hi : SessInv s) : SessInv (processInput cfg s e) := by
  cases e with
  | scanEv v => exact ⟨hi.nodupPairs, hi.idsLt, hi.holdsDown, hi.good⟩
  | otherEv => exact hi
  | keyEv code val =>
      by_cases hv : val = 2
      · simp only [processInput, if_pos hv]
        exact hi
      · simp only [processInput, if_neg hv]
        exact sessInv_keyStep cfg _ code val _
          ⟨hi.nodupPairs, hi.idsLt, hi.holdsDown, hi.good⟩

/-- Every session step preserves the invariant. -/
theorem sessInv_step (cfg : SessCfg) {a b : Session}
    (h : SessStep cfg a b) (hi : SessInv a) : SessInv b := by
  cases h with
  | input e => exact sessInv_input cfg a e hi
  | fire c b2 tid hmem => exact sessInv_fire a c b2 tid hmem hi

/-- The invariant holds in every reachable session state. -/
theorem sessInv_reaches (cfg : SessCfg) (s : Session)
    (h : Reaches cfg s) : SessInv s := by
  induction h with
  | refl => exact sessInv_init
  | tail _ hstep ih => exact sessInv_step cfg hstep ih

/-- A trace whose last down/up transition of a pair is a down decomposes
as: a down of that pair followed only by events that are not down/up
transitions of the pair. -/
theorem lastDU_true_split (pc : Nat) (pb : String) (tr : List OutEvent)
    (h : lastDU (pc, pb) tr = some true) :
    ∃ u1 sc u2, tr = u1 ++ OutEvent.key_down pc pb sc :: u2 ∧
      ∀ e ∈ u2, duEvent (pc, pb) e = none := by
  induction tr using List.reverseRecOn with
  | nil => simp [lastDU] at h
  | append_singleton u e ih =>
      cases hd : duEvent (pc, pb) e with
      | none =>
          rw [lastDU_append_none (pc, pb) u e hd] at h
          obtain ⟨u1, sc, u2, hu, hnone⟩ := ih h
          refine ⟨u1, sc, u2 ++ [e], by rw [hu]; simp, ?_⟩
          intro x hx
          rcases List.mem_append.mp hx with hx | hx
          · exact hnone x hx
          · rw [List.mem_singleton.mp hx]
            exact hd
      | some x =>
          rw [lastDU_append_some (pc, pb) u e x hd] at h
          injection h with hx
          subst hx
          cases e with
          | key_down c b sc =>
              by_cases hcb : (c, b) = (pc, pb)
              · obtain ⟨rfl, rfl⟩ := Prod.mk.injEq c b pc pb ▸ hcb
                exact ⟨u, sc, [], by simp, by simp⟩
              · simp [duEvent, hcb] at hd
          | key_up c b sc =>
              by_cases hcb : (c, b) = (pc, pb) <;> simp [duEvent, hcb] at hd
          | key_hold c b tid => simp [duEvent] at hd

/-- C3: in every reachable session state, every `key_hold` of a pair in
the trace is preceded by a `key_down` of that pair with no down/up
transition of the pair in between — synthetic holds are emitted strictly
after the key's down event and strictly before its up event (the
up-transition cancels the pair's timer, so no hold follows a `key_up`
without a new `key_down`). -/
theorem hold_between_down_and_up (cfg : SessCfg) (s : Session)
    (h : Reaches cfg s) (t1 : List OutEvent) (c : Nat) (b : String)
    (tid : Nat) (t2 : List OutEvent)
    (ht : s.trace = t1 ++ OutEvent.key_hold c b tid :: t2) :
    ∃ u1 sc u2, t1 = u1 ++ OutEvent.key_down c b sc :: u2 ∧
      ∀ e ∈ u2, duEvent (c, b) e = none :=
  lastDU_true_split c b t1 ((sessInv_reaches cfg s h).good t1 c b tid t2 ht)

/-- C3 witness: a down of code 103 followed by one timer firing yields a
trace whose hold decomposes after its down with nothing in between. -/
theorem hold_between_down_and_up_witness :
    ∃ u1 sc u2, [OutEvent.key_down 103 "up" ""] =
      u1 ++ OutEvent.key_down 103 "up" sc :: u2 ∧
      ∀ e ∈ u2, duEvent (103, "up") e = none :=
  hold_between_down_and_up exCfg exDownHold
    (SessSteps.tail
      (SessSteps.tail (SessSteps.refl sessionInit)
        (SessStep.input sessionInit (InEvent.keyEv 103 1)))
      (SessStep.fire exDown 103 "up" 0 (by decide)))
    [OutEvent.key_down 103 "up" ""] 103 "up" 0 [] (by decide)

/-- A cancelled timer identifier (allocated below the counter, no longer
registered) stays unregistered across one step, and the step emits no
hold carrying it. -/
theorem cancelled_tid_keyStep (cfg : SessCfg) (sc : String)
    (code val : Nat) (s : Session) (tid : Nat)
    (h1 : ∀ q ∈ s.holds, q.2 ≠ tid) (h2 : tid < s.nextId) :
    (∀ q ∈ (keyStep cfg sc code val s).holds, q.2 ≠ tid) ∧
    tid < (keyStep cfg sc code val s).nextId ∧
    ∀ c bt, OutEvent.key_hold c bt tid ∈ (keyStep cfg sc code val s).trace →
      OutEvent.key_hold c bt tid ∈ s.trace := by
  simp only [keyStep]
  split
  · exact ⟨h1, h2, fun c bt h => h⟩
  · split
    · split
      · refine ⟨?_, Nat.lt_succ_of_lt h2, ?_⟩
        · intro q hq
          rcases List.mem_append.mp hq with hq | hq
          · exact h1 q (eraseHold_subset s.holds _ q hq)
          · rw [List.mem_singleton.mp hq]
            exact fun he => absurd (he ▸ h2) (Nat.lt_irrefl _)
        · intro c bt h
          rcases List.mem_append.mp h with h | h
          · exact h
          · simp at h
      · refine ⟨h1, h2, ?_⟩
        intro c bt h
        rcases List.mem_append.mp h with h | h
        · exact h
        · simp at h
    · split
      · refine ⟨?_, h2, ?_⟩
        · intro q hq
          exact h1 q (eraseHold_subset s.holds _ q hq)
        · intro c bt h
          rcases List.mem_append.mp h with h | h
          · exact h
          · simp at h
      · exact ⟨h1, h2, fun c bt h => h⟩

/-- One-step version of the cancelled-timer property. -/
theorem cancelled_tid_step (cfg : SessCfg) (tid : Nat) {a b : Session}
    (hstep : SessStep cfg a b) (h1 : ∀ q ∈ a.holds, q.2 ≠ tid)
    (h2 : tid < a.nextId) :
    (∀ q ∈ b.holds, q.2 ≠ tid) ∧ tid < b.nextId ∧
      ∀ c bt, OutEvent.key_hold c bt tid ∈ b.trace →
        OutEvent.key_hold c bt tid ∈ a.trace := by
  cases hstep with
  | fire c0 b0 tid0 hmem =>
      refine ⟨h1, h2, ?_⟩
      intro c bt hmemtr
      rcases List.mem_append.mp hmemtr with h | h
      · exact h
      · rw [List.mem_singleton] at h
        injection h with hc hb htid
        exact absurd htid (fun he => h1 ((c0, b0), tid0) hmem he.symm)
  | input e =>
      cases e with
      | scanEv v => exact ⟨h1, h2, fun c bt h => h⟩
      | otherEv => exact ⟨h1, h2, fun c bt h => h⟩
      | keyEv code val =>
          by_cases hv : val = 2
          · simp only [processInput, if_pos hv]
            exact ⟨h1, h2, fun c bt h => h⟩
          · simp only [processInput, if_neg hv]
            exact cancelled_tid_keyStep cfg _ code val
              { a with lastScan := none } tid h1 h2

/-- Path version of the cancelled-timer property: once a timer
identifier has been cancelled, no later state's trace gains a hold event
carrying it. -/
theorem cancelled_tid_path (cfg : SessCfg) (tid : Nat) {s s2 : Session}
    (hpath : SessSteps cfg s s2) (h1 : ∀ q ∈ s.holds, q.2 ≠ tid)
    (h2 : tid < s.nextId) :
    ∀ c bt, OutEvent.key_hold c bt tid ∈ s2.trace →
      OutEvent.key_hold c bt tid ∈ s.trace := by
  suffices h : (∀ q ∈ s2.holds, q.2 ≠ tid) ∧ tid < s2.nextId ∧
      ∀ c bt, OutEvent.key_hold c bt tid ∈ s2.trace →
        OutEvent.key_hold c bt tid ∈ s.trace from h.2.2
  induction hpath with
  | refl => exact ⟨h1, h2, fun c bt h => h⟩
  | tail _ hstep ih =>
      obtain ⟨ih1, ih2, ih3⟩ := ih
      obtain ⟨j1, j2, j3⟩ := cancelled_tid_step cfg tid hstep ih1 ih2
      exact ⟨j1, j2, fun c bt h => ih3 c bt (j3 c bt h)⟩

/-- C5: in every reachable session state, at most one hold timer exists
per `(code, button)` pair (the registered pairs are pairwise distinct) —
a second down-transition replaces the pair's timer by first cancelling
it — and once a timer identifier has been cancelled (allocated below the
counter but no longer registered), no continuation of the run ever emits
another `key_hold` carrying it. -/
theorem one_timer_per_pair (cfg : SessCfg) (s : Session)
    (h : Reaches cfg s) :
    (s.holds.map Prod.fst).Nodup ∧
    ∀ tid, tid < s.nextId → (∀ q ∈ s.holds, q.2 ≠ tid) →
      ∀ s2, SessSteps cfg s s2 → ∀ c b,
        OutEvent.key_hold c b tid ∈ s2.trace →
        OutEvent.key_hold c b tid ∈ s.trace :=
  ⟨(sessInv_reaches cfg s h).nodupPairs,
   fun tid htid hnot s2 hpath c b hmem =>
     cancelled_tid_path cfg tid hpath hnot htid c b hmem⟩

/-- C5 witness: after two consecutive downs of code 103 the replaced
timer 0 is cancelled; the state keeps a single registered pair and timer
0 can never emit again. -/
theorem one_timer_per_pair_witness :
    (exDown2.holds.map Prod.fst).Nodup ∧
    ∀ tid, tid < exDown2.nextId → (∀ q ∈ exDown2.holds, q.2 ≠ tid) →
      ∀ s2, SessSteps exCfg exDown2 s2 → ∀ c b,
        OutEvent.key_hold c b tid ∈ s2.trace →
        OutEvent.key_hold c b tid ∈ exDown2.trace :=
  one_timer_per_pair exCfg exDown2
    (SessSteps.tail
      (SessSteps.tail (SessSteps.refl sessionInit)
        (SessStep.input sessionInit (InEvent.keyEv 103 1)))
      (SessStep.input exDown (InEvent.keyEv 103 1)))

/-- Closed form of the fuel-indexed hold loop: with wakeups every `R`
from `t`, the number of emissions before the signal at `T` is driven by
the floor of the remaining time over the repeat interval, clamped by the
available fuel. -/
theorem hold_go_closed (R T : ℚ) (hR : 0 < R) :
    ∀ (n : ℕ) (t : ℚ), hold_go R T n t =
      if t ≤ T then min n (Nat.floor ((T - t) / R) + 1) else 0 := by
  intro n
  induction n with
  | zero =>
      intro t
      simp [hold_go]
  | succ m ih =>
      intro t
      simp only [hold_go]
      by_cases ht : t ≤ T
      · rw [if_pos ht, if_pos ht, ih (t + R)]
        by_cases ht2 : t + R ≤ T
        · rw [if_pos ht2]
          have hx : (0 : ℚ) ≤ (T - (t + R)) / R :=
            div_nonneg (by linarith) hR.le
          have hfl : Nat.floor ((T - t) / R) =
              Nat.floor ((T - (t + R)) / R) + 1 := by
            have hdiv : (T - t) / R = (T - (t + R)) / R + 1 := by
              field_simp
              ring
            rw [hdiv]
            exact_mod_cast Nat.floor_add_one hx
          rw [hfl]
          omega
        · rw [if_neg ht2]
          have hlt : (T - t) / R < 1 := by
            rw [div_lt_one hR]
            linarith
          have hfl : Nat.floor ((T - t) / R) = 0 := Nat.floor_eq_zero.mpr hlt
          rw [hfl]
          omega
      · rw [if_neg ht, if_neg ht]

/-- C8: a hold timer with delay `D` and repeat `R > 0`, cancelled at
time `T`, emits exactly `floor((T - D) / R) + 1` `key_hold` events when
`T ≥ D` and none when `T < D` (a signal during the delay phase reaches
the terminal state without ever emitting), given enough fuel to cover
the run. -/
theorem hold_repeat_count (D R T : ℚ) (hR : 0 < R) (fuel : ℕ)
    (hfuel : Nat.floor ((T - D) / R) < fuel) :
    hold_loop_count D R T fuel =
      if D ≤ T then Nat.floor ((T - D) / R) + 1 else 0 := by
  unfold hold_loop_count
  rw [hold_go_closed R T hR fuel D]
  by_cases h : D ≤ T
  · rw [if_pos h, if_pos h]
    omega
  · rw [if_neg h, if_neg h]

/-- C8 witness: delay 0.25, repeat 0.1, held 0.5 seconds: the timer
emits `floor(0.25 / 0.1) + 1 = 3` holds. -/
theorem hold_repeat_count_witness :
    hold_loop_count (1/4) (1/10) (1/2) 4 =
      if (1/4 : ℚ) ≤ 1/2 then
        Nat.floor (((1/2 : ℚ) - 1/4) / (1/10)) + 1
      else 0 :=
  hold_repeat_count (1/4) (1/10) (1/2) (by norm_num) 4 (by
    have hdiv : ((1/2 : ℚ) - 1/4) / (1/10) = 5/2 := by norm_num
    rw [hdiv]
    have hfl : Nat.floor ((5:ℚ)/2) = 2 := by
      rw [Nat.floor_eq_iff (by norm_num)]
      norm_num
    rw [hfl]
    norm_num)

end ATV3
